import Mathlib

/-!
Verification of the streaming test-result parser and incremental test-tree
builder of `vscode-elm-test-runner` (`src/runner.ts`).

The development shallowly embeds the runner's data model and operations:

* `Json`, `FailureDetail`, `Result` — the wire records handled by the parser
  (`parseTestResult` lives in `src/result.ts`, which only exists through the
  specification; the definitions derived from it are marked as such).
* `TNode` — the suite/test tree (`TestSuiteInfo` / `TestInfo`).
* `RunnerState` with `pushMessage`, `accept`, `dispatchParsed`, `processAll`,
  `runAllTestsStart`, `runSomeTestsStart`, `onClose` — the mutable instance
  state of `ElmTestRunner` and the dispatch driven by process output.
* `addResultAux` / `addResultTree` — label-path insertion (`addResult_`).
* `fireEvents` — depth-first event replay.
* `handleTaskEnd` — the exit-code contract of the initial build invocation.
-/

/-! ## JSON values (the decoded form of one output line) -/

/-- A decoded JSON value, as produced by the host's JSON parser. -/
inductive Json where
  | null
  | bool (b : Bool)
  | num (n : Int)
  | str (s : String)
  | arr (items : List Json)
  | obj (fields : List (String × Json))

/-- Field lookup in a decoded JSON object (first binding wins). -/
def lookupField (key : String) : List (String × Json) → Option Json
  | [] => none
  | (k, v) :: rest => if k = key then some v else lookupField key rest

/-- Access a field of a JSON value; `none` when the value is not an object. -/
def getField (j : Json) (key : String) : Option Json :=
  match j with
  | .obj fields => lookupField key fields
  | _ => none

/-! ## Result model (from `src/result.ts`, present only through the spec) -/

/-- Modelled from the spec: one entry of a `testCompleted` record's
`failures` array (`src/result.ts` is not in the sources). The spec models
`failures[].reason.data` as a tagged union over a plain message, a structured
comparison, and an unknown payload. -/
inductive FailureDetail where
  | plainMessage (message : String)
  | comparison (comparisonKind : String) (expected : Json) (actual : Json)
  | unknownData (data : Json)

/-- The parsed outcome record for one completed test (plus the sentinel
records for `runStart` / `runComplete`, which carry only the event tag). -/
structure Result where
  event : String
  labels : List String
  status : String
  failures : List FailureDetail
  messages : List String

/-- The sentinel Result for a lifecycle event (`runStart` / `runComplete`):
only the event tag is carried. -/
def lifecycleResult (eventName : String) : Result :=
  { event := eventName, labels := [], status := "", failures := [], messages := [] }

/-! ## Message formatter (from `src/result.ts`, present only through the spec) -/

mutual

/-- Modelled from the spec: string rendering of a JSON value used when a
structured comparison is shown ("pretty-printed if the value is structured
data, falling back to string coercion otherwise"). -/
def renderJson : Json → String
  | .null => "null"
  | .bool b => if b then "true" else "false"
  | .num n => toString n
  | .str s => s
  | .arr items => "[" ++ renderJsonList items ++ "]"
  | .obj fields => "\x7b" ++ renderJsonFields fields ++ "\x7d"

/-- Rendering of the items of a JSON array, comma-separated. -/
def renderJsonList : List Json → String
  | [] => ""
  | [j] => renderJson j
  | j :: j2 :: rest => renderJson j ++ "," ++ renderJsonList (j2 :: rest)

/-- Rendering of the fields of a JSON object, comma-separated. -/
def renderJsonFields : List (String × Json) → String
  | [] => ""
  | [(k, v)] => k ++ ":" ++ renderJson v
  | (k, v) :: f2 :: rest => k ++ ":" ++ renderJson v ++ "," ++ renderJsonFields (f2 :: rest)

end

/-- Modelled from the spec: the rendering of one failure entry — its free-text
message verbatim, or a block showing the comparison kind, the expected value
and the actual value. -/
def renderFailure : FailureDetail → String
  | .plainMessage m => m
  | .comparison kind expected actual =>
      kind ++ "\n" ++ renderJson expected ++ "\n" ++ renderJson actual
  | .unknownData d => renderJson d

/-- Modelled from the spec: `buildMessage` (`src/result.ts` is not in the
sources) concatenates all accumulated diagnostic messages, each on its own
line, followed by the rendering of each failure entry. -/
def buildMessage (r : Result) : String :=
  String.intercalate "\n" (r.messages ++ r.failures.map renderFailure)

/-- The message for a possibly-missing Result. `fireEvents` passes a
possibly-absent indexed result to `buildMessage` (`buildMessage(result!)`);
per the spec's contract the formatter never throws, and an absent result
carries no messages and no failures, hence the empty string. -/
def buildMessageOpt : Option Result → String
  | some r => buildMessage r
  | none => ""

/-! ## Parser (from `src/result.ts`, present only through the spec) -/

/-- All-strings view of a list of JSON values; `none` when any item is not a
string. -/
def allStrings : List Json → Option (List String)
  | [] => some []
  | .str s :: rest => (allStrings rest).map (s :: ·)
  | _ :: _ => none

/-- View of a JSON value as an array of strings. -/
def asStringList : Json → Option (List String)
  | .arr items => allStrings items
  | _ => none

/-- Modelled from the spec: decoding of one entry of the `failures` array —
a free-text `message`, or a structured comparison under `reason.data`, or an
unknown/opaque payload. -/
def parseFailure (j : Json) : FailureDetail :=
  match getField j "message" with
  | some (.str m) => .plainMessage m
  | _ =>
    match getField j "reason" with
    | some reason =>
      match getField reason "data" with
      | some data =>
        match getField data "expected", getField data "actual",
              getField data "comparison" with
        | some e, some a, some (.str c) => .comparison c e a
        | _, _, _ => .unknownData j
      | none => .unknownData j
    | none => .unknownData j

/-- Decoding of the `failures` field: an empty sequence when absent or not an
array. -/
def parseFailures : Option Json → List FailureDetail
  | some (.arr items) => items.map parseFailure
  | _ => []

/-- Modelled from the spec: `parseTestResult` (the spec's `parseLine`, from
`src/result.ts` which is not in the sources). The host JSON decoder is passed
in as `decode` (decoding is the platform's `JSON.parse`, surfacing failure as
`none`). A line decodes to a typed `Result` when it is a JSON record with a
recognized `event` field (with, for `testCompleted`, a non-empty all-string
`labels` array and a string `status`); every other line is returned verbatim
as a diagnostic string. -/
def parseTestResult (decode : String → Option Json) (line : String) :
    Sum Result String :=
  match decode line with
  | none => .inr line
  | some j =>
    match getField j "event" with
    | some (.str "runStart") => .inl (lifecycleResult "runStart")
    | some (.str "runComplete") => .inl (lifecycleResult "runComplete")
    | some (.str "testCompleted") =>
      match asStringList ((getField j "labels").getD .null) with
      | some (l :: ls) =>
        match getField j "status" with
        | some (.str st) =>
          .inl { event := "testCompleted", labels := l :: ls, status := st,
                 failures := parseFailures (getField j "failures"), messages := [] }
        | _ => .inr line
      | _ => .inr line
    | _ => .inr line

/-! ## The suite tree (`TestSuiteInfo` / `TestInfo`) -/

/-- A node of the suite tree: a `suite` (`TestSuiteInfo`) or a `test`
(`TestInfo`). The `skipped` flag of a test models the optional `skipped`
attribute (`false` for absent). -/
inductive TNode where
  | suite (id : String) (label : String) (description : Option String)
      (children : List TNode) (file : Option String)
  | test (id : String) (label : String) (description : String)
      (file : Option String) (skipped : Bool)

/-- The `id` attribute of a node. -/
def TNode.id : TNode → String
  | .suite id _ _ _ _ => id
  | .test id _ _ _ _ => id

/-- The `label` attribute of a node. -/
def TNode.label : TNode → String
  | .suite _ label _ _ _ => label
  | .test _ label _ _ _ => label

/-! ## Source file path derivation (`getFilePath`) -/

/-- Replacement of the first occurrence of a character, on the character
list. -/
def replaceFirstChar (c r : Char) : List Char → List Char
  | [] => []
  | x :: xs => if x = c then r :: xs else x :: replaceFirstChar c r xs

/-- JavaScript's `String.prototype.replace` with a plain (non-regex,
single-character) pattern: only the FIRST occurrence is replaced. -/
def jsReplaceOnce (s : String) (c r : Char) : String :=
  String.mk (replaceFirstChar c r s.toList)

/-- The runner's `getFilePath`: the module label `result.labels[0]` with its
first `.` replaced by `/` (JavaScript `replace` with a string pattern
replaces a single occurrence), under `<workspace>/tests/`, with extension
`.elm`. On an empty `labels` the source would fault (`labels[0]` is
`undefined`); every caller passes a parsed result with at least one label. -/
def getFilePath (folderPath : String) (r : Result) : String :=
  let module := r.labels.headI
  let file := jsReplaceOnce module '.' '/'
  folderPath ++ "/tests/" ++ file ++ ".elm"

/-! ## Label-path insertion (`addResult_`) -/

/-- The first child whose `label` equals `l` (`children.find(...)`). -/
def findChild (l : String) : List TNode → Option TNode
  | [] => none
  | c :: cs => if c.label = l then some c else findChild l cs

/-- Replacement of the first child whose `label` equals `l` — the in-place
mutation of the child found by `findChild`. -/
def replaceFirstLabel (l : String) (n : TNode) : List TNode → List TNode
  | [] => []
  | c :: cs => if c.label = l then n :: cs else c :: replaceFirstLabel l n cs

/-- The leaf `TestInfo` created for the final label: id `suite.id + '/' +
label`, `skipped` added exactly when the status is `todo`. -/
def mkTestNode (fp : String) (sid l : String) (r : Result) : TNode :=
  .test (sid ++ "/" ++ l) l l (some (getFilePath fp r)) (r.status = "todo")

/-- The recursion of `addResult_`, acting on the children list of the suite
with id `sid`: for a single remaining label a leaf test is appended; for more
labels the first child carrying the head label is reused when it is a suite,
and a fresh suite (id `sid + '/' + label`) is appended otherwise. Returns the
updated children and the id of the created leaf test. The source never calls
this with an empty label list (parsed results have at least one label); the
`[]` equation is an unreachable filler. -/
def addResultAux (fp : String) (r : Result) :
    String → List TNode → List String → List TNode × String
  | sid, children, [] => (children, sid)
  | sid, children, [l] =>
      (children ++ [mkTestNode fp sid l r], sid ++ "/" ++ l)
  | sid, children, l :: l2 :: rest =>
    match findChild l children with
    | some (.suite cid clab cdesc cchildren cfile) =>
      let res := addResultAux fp r cid cchildren (l2 :: rest)
      (replaceFirstLabel l (.suite cid clab cdesc res.1 cfile) children, res.2)
    | _ =>
      let nsid := sid ++ "/" ++ l
      let res := addResultAux fp r nsid [] (l2 :: rest)
      (children ++ [.suite nsid l (some l) res.1 (some (getFilePath fp r))], res.2)

/-- The runner's `addResult`: insertion of a result's label path into a tree
rooted at `t` (the loading suite, always a suite node; the `test` equation is
an unreachable filler). -/
def addResultTree (fp : String) (t : TNode) (r : Result) : TNode × String :=
  match t with
  | .suite id label desc children file =>
    let res := addResultAux fp r id children r.labels
    (.suite id label desc res.1 file, res.2)
  | .test .. => (t, t.id)

/-! ## Orchestrator state (`ElmTestRunner` instance state) -/

/-- The mutable instance state of `ElmTestRunner`: the loaded and loading
trees, the result index `resultById`, and the pending-diagnostic buffer. -/
structure RunnerState where
  loadedSuite : Option TNode
  loadingSuite : Option TNode
  resultById : String → Option Result
  pendingMessages : List String

/-- The state of a freshly constructed runner. -/
def initialState : RunnerState :=
  { loadedSuite := none, loadingSuite := none,
    resultById := fun _ => none, pendingMessages := [] }

/-- The fresh `Loading` suite tree created at run start, rooted at `root`. -/
def freshLoadingRoot : TNode := .suite "root" "root" none [] none

/-- The synchronous state change of `runAllTests` before process start:
`loadedSuite` is reset, a fresh loading root is installed, and the
pending-message buffer is emptied. -/
def runAllTestsStart (s : RunnerState) : RunnerState :=
  { s with loadedSuite := none, loadingSuite := some freshLoadingRoot,
           pendingMessages := [] }

/-- The synchronous state change of `runSomeTests` before process start: like
`runAllTests` but `loadedSuite` is left alone. -/
def runSomeTestsStart (s : RunnerState) : RunnerState :=
  { s with loadingSuite := some freshLoadingRoot, pendingMessages := [] }

/-- The runner's `pushMessage`: an empty (falsy) message is discarded, any
other message is appended to the pending buffer. -/
def pushMessage (s : RunnerState) (message : String) : RunnerState :=
  if message = "" then s
  else { s with pendingMessages := s.pendingMessages ++ [message] }

/-- The runner's `accept`: a `testCompleted` result drains the pending buffer
into the result's `messages` (`popMessages`), inserts the result into the
loading tree, and records it in the result index under the created leaf id;
`runStart` / `runComplete` take no action. The `loadingSuite = none` equation
is an unreachable filler: streaming only happens after a run start installed
a loading root. -/
def accept (fp : String) (s : RunnerState) (result : Result) : RunnerState :=
  if result.event = "testCompleted" then
    match s.loadingSuite with
    | some t =>
      let r' := { result with messages := s.pendingMessages }
      let res := addResultTree fp t r'
      { s with loadingSuite := some res.1,
               pendingMessages := [],
               resultById := fun k => if k = res.2 then some r' else s.resultById k }
    | none => s
  else s

/-- Dispatch of one parsed line (`parse`): a plain string goes to
`pushMessage`, a typed result to `accept`. -/
def dispatchParsed (fp : String) (s : RunnerState) : Sum Result String → RunnerState
  | .inl r => accept fp s r
  | .inr m => pushMessage s m

/-- Dispatch of a whole sequence of parsed lines, in arrival order. -/
def processAll (fp : String) : RunnerState → List (Sum Result String) → RunnerState
  | s, [] => s
  | s, item :: items => processAll fp (dispatchParsed fp s item) items

/-- The `close` handler of the report-mode process: when no loaded tree
exists, the loading tree is promoted; the run resolves with the (now-stable)
loaded tree. Returns the new state and the tree carried by the finished
event. -/
def onClose (s : RunnerState) : RunnerState × Option TNode :=
  let loaded :=
    match s.loadedSuite with
    | none => s.loadingSuite
    | some t => some t
  ({ s with loadedSuite := loaded }, loaded)

/-! ## Build-phase exit handling (`runElmTests`) -/

/-- What the `onDidEndTaskProcess` handler does next. -/
inductive TaskEndAction where
  | runReport
  | rejectRun (message : String)

/-- The name given to the build task. -/
def elmTestTaskName : String := "Run Elm Test"

/-- The rejection message assembled when the build invocation exits with
code 1. -/
def elmTestFailedMessage (taskName : String) : String :=
  "elm-test failed.\nCheck for Elm errors,\nfind details in the \"Task - "
    ++ taskName ++ "\" terminal."

/-- The exit-code dispatch of the initial build invocation: any exit code
other than 1 proceeds to the report-mode invocation; exit code 1 rejects the
run. -/
def handleTaskEnd (taskName : String) (exitCode : Int) : TaskEndAction :=
  if exitCode ≠ 1 then .runReport
  else .rejectRun (elmTestFailedMessage taskName)

/-! ## Event replay (`fireEvents`) -/

/-- One event fired at the test-states emitter during replay. -/
inductive TestRunEvent where
  | suiteRunning (suiteId : String)
  | suiteCompleted (suiteId : String)
  | testRunning (testId : String)
  | testPassed (testId : String) (message : String)
  | testSkipped (testId : String) (message : String)
  | testFailed (testId : String) (message : String)

mutual

/-- The runner's `fireEvents`: for a suite, a running marker, the events of
each child in order, and a completed marker; for a test, a running marker and
one terminal marker chosen by the indexed result's status (`pass` → passed,
`todo` → skipped, anything else — a missing result included — → failed). -/
def fireEvents (res : String → Option Result) : TNode → List TestRunEvent
  | .suite id _ _ children _ =>
      .suiteRunning id :: (fireEventsAll res children ++ [.suiteCompleted id])
  | .test id _ _ _ _ =>
      let result := res id
      let message := buildMessageOpt result
      [.testRunning id,
       match result with
       | some r =>
         match r.status with
         | "pass" => .testPassed id message
         | "todo" => .testSkipped id message
         | _ => .testFailed id message
       | none => .testFailed id message]

/-- Sequential replay of a children list (`for (const child of node.children)
await this.fireEvents(child, ...)`). -/
def fireEventsAll (res : String → Option Result) : List TNode → List TestRunEvent
  | [] => []
  | c :: cs => fireEvents res c ++ fireEventsAll res cs

end

/-! ## Measures and invariants used by the theorems -/

/-- Path-join of a label sequence onto a base id, one `/` per label. -/
def pathOf (base : String) : List String → String
  | [] => base
  | l :: ls => pathOf (base ++ "/" ++ l) ls

mutual

/-- Number of suite nodes with id `q` in a tree. -/
def countSuiteId (q : String) : TNode → Nat
  | .suite id _ _ children _ =>
      (if id = q then 1 else 0) + countSuiteIdAll q children
  | .test _ _ _ _ _ => 0

/-- Number of suite nodes with id `q` in a forest. -/
def countSuiteIdAll (q : String) : List TNode → Nat
  | [] => 0
  | c :: cs => countSuiteId q c + countSuiteIdAll q cs

end

mutual

/-- Number of test leaves with id `q` in a tree. -/
def countTestId (q : String) : TNode → Nat
  | .suite _ _ _ children _ => countTestIdAll q children
  | .test id _ _ _ _ => if id = q then 1 else 0

/-- Number of test leaves with id `q` in a forest. -/
def countTestIdAll (q : String) : List TNode → Nat
  | [] => 0
  | c :: cs => countTestId q c + countTestIdAll q cs

end

mutual

/-- Well-formed ids: every node's id is its parent's id, `/`, its label
(`pid` being the parent id). -/
def wfNodeB (pid : String) : TNode → Bool
  | .suite id label _ children _ =>
      (id == pid ++ "/" ++ label) && wfForestB id children
  | .test id label _ _ _ => id == pid ++ "/" ++ label

/-- Well-formed ids for every node of a forest under parent id `pid`. -/
def wfForestB (pid : String) : List TNode → Bool
  | [] => true
  | c :: cs => wfNodeB pid c && wfForestB pid cs

end

/-- Well-formed ids for every node strictly below the root. -/
def wfSuiteChildren : TNode → Bool
  | .suite id _ _ children _ => wfForestB id children
  | .test _ _ _ _ _ => true

/-- The chain of fresh nodes that inserting `labels` into an empty children
list creates: nested singleton suites ending in a test leaf. -/
def spine (fp : String) (r : Result) : String → List String → List TNode
  | _, [] => []
  | sid, [l] => [mkTestNode fp sid l r]
  | sid, l :: l2 :: rest =>
      [.suite (sid ++ "/" ++ l) l (some l)
        (spine fp r (sid ++ "/" ++ l) (l2 :: rest)) (some (getFilePath fp r))]

/-- Folding a list of results into a tree (`addResult` called per streamed
result). -/
def insertAll (fp : String) (t : TNode) (rs : List Result) : TNode :=
  rs.foldl (fun acc r => (addResultTree fp acc r).1) t

/-! ## Statement-side definitions -/

/-- The spec's description of the terminal marker of a test: `passed` for
status `pass`, `skipped` for status `todo`, `failed` for anything else,
a missing result included. -/
def specTerminalEvent (result : Option Result) (id : String) : TestRunEvent :=
  if result.map (·.status) = some "pass" then .testPassed id (buildMessageOpt result)
  else if result.map (·.status) = some "todo" then .testSkipped id (buildMessageOpt result)
  else .testFailed id (buildMessageOpt result)

mutual

/-- The spec's description of event replay: depth-first, a suite-started
marker, the events of each child in order, a suite-completed marker; and a
test-started marker followed by exactly one terminal marker. -/
def specFireEvents (res : String → Option Result) : TNode → List TestRunEvent
  | .suite id _ _ children _ =>
      [.suiteRunning id] ++ specFireEventsAll res children ++ [.suiteCompleted id]
  | .test id _ _ _ _ =>
      [.testRunning id, specTerminalEvent (res id) id]

/-- The spec-side replay of a children list, in order. -/
def specFireEventsAll (res : String → Option Result) : List TNode → List TestRunEvent
  | [] => []
  | c :: cs => specFireEvents res c ++ specFireEventsAll res cs

end

/-- Whether a decoded line carries one of the three recognized `event`
tags. -/
def recognizedEventB (j : Json) : Bool :=
  match getField j "event" with
  | some (.str "runStart") => true
  | some (.str "runComplete") => true
  | some (.str "testCompleted") => true
  | _ => false

/-- The messages `pushMessage` keeps: the non-empty (truthy) ones. -/
def nonEmptyStr (m : String) : Bool := !(m == "")

/-- No empty diagnostic string anywhere: neither buffered nor attached to an
indexed result. -/
def noEmptyState (s : RunnerState) : Prop :=
  ¬ ("" ∈ s.pendingMessages) ∧
  ∀ k r, s.resultById k = some r → ¬ ("" ∈ r.messages)

/-- A concrete `testCompleted` result used by witnesses and counterexamples. -/
def sampleResult (labels : List String) (status : String) : Result :=
  { event := "testCompleted", labels := labels, status := status,
    failures := [], messages := [] }

/-- A runner state holding one indexed result from an earlier (full) run. -/
def priorState : RunnerState :=
  { initialState with
    resultById := fun k =>
      if k = "root/Mod/t1" then some (sampleResult ["Mod", "t1"] "pass") else none }

/-! ## Basic lemmas about the measures -/

theorem countSuiteIdAll_append (q : String) (xs ys : List TNode) :
    countSuiteIdAll q (xs ++ ys) = countSuiteIdAll q xs + countSuiteIdAll q ys := by
  induction xs with
  | nil => simp [countSuiteIdAll]
  | cons c cs ih => simp [countSuiteIdAll, ih]; omega

theorem countTestIdAll_append (q : String) (xs ys : List TNode) :
    countTestIdAll q (xs ++ ys) = countTestIdAll q xs + countTestIdAll q ys := by
  induction xs with
  | nil => simp [countTestIdAll]
  | cons c cs ih => simp [countTestIdAll, ih]; omega

theorem wfForestB_append (pid : String) (xs ys : List TNode) :
    wfForestB pid (xs ++ ys) = (wfForestB pid xs && wfForestB pid ys) := by
  induction xs with
  | nil => simp [wfForestB]
  | cons c cs ih => simp [wfForestB, ih, Bool.and_assoc]

theorem length_lt_length_join (s l : String) :
    s.length < (s ++ "/" ++ l).length := by
  have h1 : ("/" : String).length = 1 := rfl
  simp [String.length_append, h1]
  omega

theorem length_le_pathOf : ∀ (ls : List String) (base : String),
    base.length + ls.length ≤ (pathOf base ls).length
  | [], base => by simp [pathOf]
  | l :: ls, base => by
      have h := length_le_pathOf ls (base ++ "/" ++ l)
      have h1 : ("/" : String).length = 1 := rfl
      simp [pathOf, String.length_append, h1] at h ⊢
      omega

theorem pathOf_ne_short (base : String) (ls : List String) (q : String)
    (hq : q.length ≤ base.length) (hls : ls ≠ []) : pathOf base ls ≠ q := by
  intro h
  have hlen := length_le_pathOf ls base
  rw [h] at hlen
  have : 1 ≤ ls.length := by
    cases ls with
    | nil => exact absurd rfl hls
    | cons a as => simp
  omega

/-! ## Lemmas about child lookup and replacement -/

theorem findChild_label (l : String) :
    ∀ (cs : List TNode) (c : TNode), findChild l cs = some c → c.label = l := by
  intro cs
  induction cs with
  | nil => intro c h; simp [findChild] at h
  | cons c0 cs ih =>
      intro c h
      by_cases h0 : c0.label = l
      · simp [findChild, h0] at h
        rw [← h]
        exact h0
      · simp [findChild, h0] at h
        exact ih c h

theorem findChild_decomp (l : String) :
    ∀ (cs : List TNode) (c : TNode), findChild l cs = some c →
      ∃ pre post, cs = pre ++ c :: post ∧
        ∀ n, replaceFirstLabel l n cs = pre ++ n :: post := by
  intro cs
  induction cs with
  | nil => intro c h; simp [findChild] at h
  | cons c0 cs ih =>
      intro c h
      by_cases h0 : c0.label = l
      · simp [findChild, h0] at h
        refine ⟨[], cs, by simp [h], ?_⟩
        intro n
        simp [replaceFirstLabel, h0]
      · simp [findChild, h0] at h
        obtain ⟨pre, post, hcs, hrep⟩ := ih c h
        refine ⟨c0 :: pre, post, by simp [hcs], ?_⟩
        intro n
        simp [replaceFirstLabel, h0, hrep n]

/-! ## Lemmas about well-formed ids -/

theorem wfNodeB_suite_iff (pid id label : String) (desc : Option String)
    (children : List TNode) (file : Option String) :
    wfNodeB pid (.suite id label desc children file) = true ↔
      (id = pid ++ "/" ++ label ∧ wfForestB id children = true) := by
  simp [wfNodeB]

theorem wfForestB_cons_iff (pid : String) (c : TNode) (cs : List TNode) :
    wfForestB pid (c :: cs) = true ↔
      (wfNodeB pid c = true ∧ wfForestB pid cs = true) := by
  simp [wfForestB]

theorem wfForestB_decomp (pid : String) (pre post : List TNode) (c : TNode) :
    wfForestB pid (pre ++ c :: post) = true ↔
      (wfForestB pid pre = true ∧ wfNodeB pid c = true ∧
       wfForestB pid post = true) := by
  simp [wfForestB_append, wfForestB]

mutual

theorem wf_count_zero_node (q : String) :
    ∀ (pid : String) (t : TNode), wfNodeB pid t = true →
      q.length ≤ pid.length → countSuiteId q t = 0
  | pid, .suite id label desc children file, hwf, hq => by
      rw [wfNodeB_suite_iff] at hwf
      obtain ⟨hid, hch⟩ := hwf
      have hlt : pid.length < id.length := by
        rw [hid]; exact length_lt_length_join pid label
      have hne : ¬ (id = q) := by
        intro he
        have := congrArg String.length he
        omega
      have h0 := wf_count_zero_forest q id children hch (by omega)
      simp [countSuiteId, hne, h0]
  | _, .test _ _ _ _ _, _, _ => by simp [countSuiteId]

theorem wf_count_zero_forest (q : String) :
    ∀ (pid : String) (cs : List TNode), wfForestB pid cs = true →
      q.length ≤ pid.length → countSuiteIdAll q cs = 0
  | _, [], _, _ => by simp [countSuiteIdAll]
  | pid, c :: cs, hwf, hq => by
      rw [wfForestB_cons_iff] at hwf
      have h1 := wf_count_zero_node q pid c hwf.1 hq
      have h2 := wf_count_zero_forest q pid cs hwf.2 hq
      simp [countSuiteIdAll, h1, h2]

end

/-! ## The spine created by insertion into an empty children list -/

theorem spine_wf (fp : String) (r : Result) :
    ∀ (labels : List String) (sid : String),
      wfForestB sid (spine fp r sid labels) = true
  | [], sid => by simp [spine, wfForestB]
  | [l], sid => by simp [spine, wfForestB, wfNodeB, mkTestNode]
  | l :: l2 :: rest, sid => by
      have ih := spine_wf fp r (l2 :: rest) (sid ++ "/" ++ l)
      simp [spine, wfForestB, wfNodeB, ih]

theorem addResultAux_nil (fp : String) (r : Result) :
    ∀ (labels : List String) (sid : String),
      addResultAux fp r sid [] labels = (spine fp r sid labels, pathOf sid labels)
  | [], sid => by simp [addResultAux, spine, pathOf]
  | [l], sid => by simp [addResultAux, spine, pathOf]
  | l :: l2 :: rest, sid => by
      have ih := addResultAux_nil fp r (l2 :: rest) (sid ++ "/" ++ l)
      simp [addResultAux, findChild, spine, pathOf, ih]

/-! ## Insertion preserves well-formed ids, returns the path-joined id -/

theorem addResultAux_wf (fp : String) (r : Result) :
    ∀ (labels : List String) (sid : String) (children : List TNode),
      wfForestB sid children = true →
      wfForestB sid (addResultAux fp r sid children labels).1 = true
  | [], _, _, h => by simpa [addResultAux]
  | [l], sid, children, h => by
      simp [addResultAux, wfForestB_append, h, wfForestB, wfNodeB, mkTestNode]
  | l :: l2 :: rest, sid, children, h => by
      cases hfc : findChild l children with
      | none =>
          have ih := addResultAux_wf fp r (l2 :: rest) (sid ++ "/" ++ l) []
            (by simp [wfForestB])
          simp [addResultAux, hfc, wfForestB_append, h, wfForestB, wfNodeB, ih]
      | some c =>
          cases c with
          | test cid clab cdesc cfile csk =>
              have ih := addResultAux_wf fp r (l2 :: rest) (sid ++ "/" ++ l) []
                (by simp [wfForestB])
              simp [addResultAux, hfc, wfForestB_append, h, wfForestB, wfNodeB, ih]
          | suite cid clab cdesc cchildren cfile =>
              obtain ⟨pre, post, hcs, hrep⟩ := findChild_decomp l children _ hfc
              have hwf := (wfForestB_decomp sid pre post _).mp (hcs ▸ h)
              have hcid := ((wfNodeB_suite_iff sid cid clab cdesc cchildren cfile).mp hwf.2.1).1
              have hcch := ((wfNodeB_suite_iff sid cid clab cdesc cchildren cfile).mp hwf.2.1).2
              have ih := addResultAux_wf fp r (l2 :: rest) cid cchildren hcch
              simp only [addResultAux, hfc]
              rw [hrep, wfForestB_decomp]
              exact ⟨hwf.1, (wfNodeB_suite_iff sid cid clab cdesc _ cfile).mpr ⟨hcid, ih⟩,
                hwf.2.2⟩

theorem addResultAux_ret (fp : String) (r : Result) :
    ∀ (labels : List String) (sid : String) (children : List TNode),
      wfForestB sid children = true →
      (addResultAux fp r sid children labels).2 = pathOf sid labels
  | [], _, _, _ => by simp [addResultAux, pathOf]
  | [l], sid, children, _ => by simp [addResultAux, pathOf]
  | l :: l2 :: rest, sid, children, h => by
      cases hfc : findChild l children with
      | none =>
          have ih := addResultAux_ret fp r (l2 :: rest) (sid ++ "/" ++ l) []
            (by simp [wfForestB])
          simp [addResultAux, hfc, pathOf, ih]
      | some c =>
          cases c with
          | test cid clab cdesc cfile csk =>
              have ih := addResultAux_ret fp r (l2 :: rest) (sid ++ "/" ++ l) []
                (by simp [wfForestB])
              simp [addResultAux, hfc, pathOf, ih]
          | suite cid clab cdesc cchildren cfile =>
              have hlab : clab = l := findChild_label l children _ hfc
              obtain ⟨pre, post, hcs, hrep⟩ := findChild_decomp l children _ hfc
              have hwf := (wfForestB_decomp sid pre post _).mp (hcs ▸ h)
              have hcid := ((wfNodeB_suite_iff sid cid clab cdesc cchildren cfile).mp hwf.2.1).1
              have hcch := ((wfNodeB_suite_iff sid cid clab cdesc cchildren cfile).mp hwf.2.1).2
              have ih := addResultAux_ret fp r (l2 :: rest) cid cchildren hcch
              simp only [addResultAux, hfc]
              rw [ih, hcid, hlab]
              rfl

theorem addResultAux_count_short (fp : String) (r : Result) :
    ∀ (labels : List String) (sid : String) (children : List TNode) (q : String),
      wfForestB sid children = true → q.length ≤ sid.length →
      countSuiteIdAll q (addResultAux fp r sid children labels).1 = 0
  | [], sid, children, q, h, hq => by
      simpa [addResultAux] using wf_count_zero_forest q sid children h hq
  | [l], sid, children, q, h, hq => by
      have h0 := wf_count_zero_forest q sid children h hq
      simp [addResultAux, countSuiteIdAll_append, countSuiteIdAll, countSuiteId,
        mkTestNode, h0]
  | l :: l2 :: rest, sid, children, q, h, hq => by
      have h0 := wf_count_zero_forest q sid children h hq
      have hlt : sid.length < (sid ++ "/" ++ l).length := length_lt_length_join sid l
      cases hfc : findChild l children with
      | none =>
          have hne : ¬ ((sid ++ "/" ++ l) = q) := by
            intro he
            have := congrArg String.length he
            omega
          have ih := addResultAux_count_short fp r (l2 :: rest) (sid ++ "/" ++ l) [] q
            (by simp [wfForestB]) (by omega)
          simp [addResultAux, hfc, countSuiteIdAll_append, countSuiteIdAll,
            countSuiteId, h0, hne, ih]
      | some c =>
          cases c with
          | test cid clab cdesc cfile csk =>
              have hne : ¬ ((sid ++ "/" ++ l) = q) := by
                intro he
                have := congrArg String.length he
                omega
              have ih := addResultAux_count_short fp r (l2 :: rest) (sid ++ "/" ++ l) [] q
                (by simp [wfForestB]) (by omega)
              simp [addResultAux, hfc, countSuiteIdAll_append, countSuiteIdAll,
                countSuiteId, h0, hne, ih]
          | suite cid clab cdesc cchildren cfile =>
              obtain ⟨pre, post, hcs, hrep⟩ := findChild_decomp l children _ hfc
              have hwf := (wfForestB_decomp sid pre post _).mp (hcs ▸ h)
              have hcid := ((wfNodeB_suite_iff sid cid clab cdesc cchildren cfile).mp hwf.2.1).1
              have hcch := ((wfNodeB_suite_iff sid cid clab cdesc cchildren cfile).mp hwf.2.1).2
              have hltc : sid.length < cid.length := by
                rw [hcid]; exact length_lt_length_join sid clab
              have hnec : ¬ (cid = q) := by
                intro he
                have := congrArg String.length he
                omega
              have ih := addResultAux_count_short fp r (l2 :: rest) cid cchildren q
                hcch (by omega)
              have hpre := wf_count_zero_forest q sid pre hwf.1 hq
              have hpost := wf_count_zero_forest q sid post hwf.2.2 hq
              simp only [addResultAux, hfc]
              rw [hrep]
              simp [countSuiteIdAll_append, countSuiteIdAll, countSuiteId,
                hpre, hpost, hnec, ih]

theorem addResultAux_test_le (fp : String) (r : Result) :
    ∀ (labels : List String) (sid : String) (children : List TNode),
      labels ≠ [] → wfForestB sid children = true →
      1 ≤ countTestIdAll (pathOf sid labels) (addResultAux fp r sid children labels).1
  | [], _, _, hne, _ => absurd rfl hne
  | [l], sid, children, _, _ => by
      simp [addResultAux, countTestIdAll_append, countTestIdAll, countTestId,
        mkTestNode, pathOf]
  | l :: l2 :: rest, sid, children, _, h => by
      cases hfc : findChild l children with
      | none =>
          have ih := addResultAux_test_le fp r (l2 :: rest) (sid ++ "/" ++ l) []
            (by simp) (by simp [wfForestB])
          have hstep : pathOf sid (l :: l2 :: rest) = pathOf (sid ++ "/" ++ l) (l2 :: rest) := rfl
          simp only [addResultAux, hfc, hstep]
          rw [countTestIdAll_append]
          simp only [countTestIdAll, countTestId]
          omega
      | some c =>
          cases c with
          | test cid clab cdesc cfile csk =>
              have ih := addResultAux_test_le fp r (l2 :: rest) (sid ++ "/" ++ l) []
                (by simp) (by simp [wfForestB])
              have hstep : pathOf sid (l :: l2 :: rest) = pathOf (sid ++ "/" ++ l) (l2 :: rest) := rfl
              simp only [addResultAux, hfc, hstep]
              rw [countTestIdAll_append]
              simp only [countTestIdAll, countTestId]
              omega
          | suite cid clab cdesc cchildren cfile =>
              have hlab : clab = l := findChild_label l children _ hfc
              obtain ⟨pre, post, hcs, hrep⟩ := findChild_decomp l children _ hfc
              have hwf := (wfForestB_decomp sid pre post _).mp (hcs ▸ h)
              have hcid := ((wfNodeB_suite_iff sid cid clab cdesc cchildren cfile).mp hwf.2.1).1
              have hcch := ((wfNodeB_suite_iff sid cid clab cdesc cchildren cfile).mp hwf.2.1).2
              have ih := addResultAux_test_le fp r (l2 :: rest) cid cchildren
                (by simp) hcch
              have hq : pathOf sid (l :: l2 :: rest) = pathOf cid (l2 :: rest) := by
                rw [hcid, hlab]
                rfl
              simp only [addResultAux, hfc]
              rw [hrep, hq, countTestIdAll_append]
              simp only [countTestIdAll, countTestId]
              omega

theorem insert_spine_count (fp : String) (r1 r2 : Result) :
    ∀ (p q1 q2 : List String) (sid : String) (i : Nat),
      q1 ≠ [] → q2 ≠ [] → i < p.length →
      countSuiteIdAll (pathOf sid (p.take (i + 1)))
        (addResultAux fp r2 sid (spine fp r1 sid (p ++ q1)) (p ++ q2)).1 = 1
  | [], _, _, _, i, _, _, hi => absurd hi (by simp)
  | a :: p', q1, q2, sid, i, hq1, hq2, hi => by
      cases hpq1 : p' ++ q1 with
      | nil => exact absurd (List.append_eq_nil.mp hpq1).2 hq1
      | cons x xs =>
      cases hpq2 : p' ++ q2 with
      | nil => exact absurd (List.append_eq_nil.mp hpq2).2 hq2
      | cons y ys =>
      have hcons1 : (a :: p') ++ q1 = a :: x :: xs := by
        rw [List.cons_append, hpq1]
      have hcons2 : (a :: p') ++ q2 = a :: y :: ys := by
        rw [List.cons_append, hpq2]
      rw [hcons1, hcons2]
      have hred : (addResultAux fp r2 sid (spine fp r1 sid (a :: x :: xs)) (a :: y :: ys)).1
          = [TNode.suite (sid ++ "/" ++ a) a (some a)
              (addResultAux fp r2 (sid ++ "/" ++ a)
                (spine fp r1 (sid ++ "/" ++ a) (x :: xs)) (y :: ys)).1
              (some (getFilePath fp r1))] := by
        simp [spine, addResultAux, findChild, TNode.label, replaceFirstLabel]
      rw [hred]
      cases i with
      | zero =>
          have hpath : pathOf sid ((a :: p').take 1) = sid ++ "/" ++ a := by
            simp [pathOf]
          rw [hpath]
          have hzero := addResultAux_count_short fp r2 (y :: ys) (sid ++ "/" ++ a)
            (spine fp r1 (sid ++ "/" ++ a) (x :: xs)) (sid ++ "/" ++ a)
            (spine_wf fp r1 (x :: xs) (sid ++ "/" ++ a)) (le_refl _)
          simp [countSuiteIdAll, countSuiteId, hzero]
      | succ k =>
          have hk : k < p'.length := by
            simp at hi
            omega
          have htake : (a :: p').take (k + 1 + 1) = a :: p'.take (k + 1) := by
            simp [List.take_succ_cons]
          rw [htake]
          have hpath : pathOf sid (a :: p'.take (k + 1))
              = pathOf (sid ++ "/" ++ a) (p'.take (k + 1)) := rfl
          rw [hpath]
          have htne : p'.take (k + 1) ≠ [] := by
            cases p' with
            | nil => simp at hk
            | cons b bs => simp [List.take_succ_cons]
          have hne : ¬ ((sid ++ "/" ++ a) = pathOf (sid ++ "/" ++ a) (p'.take (k + 1))) := by
            intro he
            exact pathOf_ne_short (sid ++ "/" ++ a) (p'.take (k + 1)) (sid ++ "/" ++ a)
              (le_refl _) htne he.symm
          have ih := insert_spine_count fp r1 r2 p' q1 q2 (sid ++ "/" ++ a) k hq1 hq2 hk
          rw [hpq1, hpq2] at ih
          simp [countSuiteIdAll, countSuiteId, hne, ih]

/-! ## Trees built from the fresh root -/

theorem insertAll_root (fp : String) :
    ∀ (rs : List Result) (children : List TNode),
      wfForestB "root" children = true →
      ∃ children2,
        insertAll fp (.suite "root" "root" none children none) rs
          = .suite "root" "root" none children2 none ∧
        wfForestB "root" children2 = true
  | [], children, h => ⟨children, rfl, h⟩
  | r :: rs, children, h => by
      have h2 := addResultAux_wf fp r r.labels "root" children h
      have ih := insertAll_root fp rs (addResultAux fp r "root" children r.labels).1 h2
      simpa [insertAll, List.foldl, addResultTree] using ih

/-- C3: inserting two Results whose label sequences share a common proper
label prefix `p` (both extend `p` non-trivially) into the same fresh loading
tree produces, for every label of `p`, exactly one Suite node with the
corresponding path-joined id — the second insertion reuses the Suite nodes
created by the first instead of creating duplicates. Either insertion order
is an instance of this statement. -/
theorem addResult_shared_path_single_suite (fp : String) (r1 r2 : Result)
    (p q1 q2 : List String) (h1 : r1.labels = p ++ q1) (h2 : r2.labels = p ++ q2)
    (hq1 : q1 ≠ []) (hq2 : q2 ≠ []) (i : Nat) (hi : i < p.length) :
    countSuiteId (pathOf "root" (p.take (i + 1)))
      (addResultTree fp (addResultTree fp freshLoadingRoot r1).1 r2).1 = 1 := by
  have hins1 : (addResultTree fp freshLoadingRoot r1).1
      = .suite "root" "root" none (spine fp r1 "root" (p ++ q1)) none := by
    simp [addResultTree, freshLoadingRoot, addResultAux_nil, h1]
  rw [hins1]
  have hins2 : (addResultTree fp
        (.suite "root" "root" none (spine fp r1 "root" (p ++ q1)) none) r2).1
      = .suite "root" "root" none
          (addResultAux fp r2 "root" (spine fp r1 "root" (p ++ q1)) (p ++ q2)).1 none := by
    simp [addResultTree, h2]
  rw [hins2]
  have htne : p.take (i + 1) ≠ [] := by
    cases p with
    | nil => simp at hi
    | cons b bs => simp [List.take_succ_cons]
  have hne : ¬ (("root" : String) = pathOf "root" (p.take (i + 1))) := by
    intro he
    exact pathOf_ne_short "root" (p.take (i + 1)) "root" (le_refl _) htne he.symm
  have hmain := insert_spine_count fp r1 r2 p q1 q2 "root" i hq1 hq2 hi
  simp [countSuiteId, hne, hmain]

/-- Witness for C3 at a concrete pair of results sharing the module label
`A`. -/
theorem addResult_shared_path_single_suite_witness :
    (sampleResult ["A", "B"] "pass").labels = ["A"] ++ ["B"] ∧
    countSuiteId (pathOf "root" (["A"].take 1))
      (addResultTree "/ws"
        (addResultTree "/ws" freshLoadingRoot (sampleResult ["A", "B"] "pass")).1
        (sampleResult ["A", "C"] "fail")).1 = 1 :=
  ⟨rfl, addResult_shared_path_single_suite "/ws"
    (sampleResult ["A", "B"] "pass") (sampleResult ["A", "C"] "fail")
    ["A"] ["B"] ["C"] rfl rfl (by decide) (by decide) 0 (by decide)⟩

/-- C4: in every tree built by inserting results into the fresh root suite,
every created node's id is its parent's id joined with its own label by `/`
(so ids are the path-join of the label path from the root id `root`), and
`addResult` returns exactly the path-joined id of the leaf Test node it
creates — a test leaf with that id is present after the insertion. -/
theorem addResult_path_ids (fp : String) (rs : List Result) (r : Result)
    (hr : r.labels ≠ []) :
    wfSuiteChildren (insertAll fp freshLoadingRoot rs) = true ∧
    (addResultTree fp (insertAll fp freshLoadingRoot rs) r).2 = pathOf "root" r.labels ∧
    1 ≤ countTestId (pathOf "root" r.labels)
        (addResultTree fp (insertAll fp freshLoadingRoot rs) r).1 := by
  obtain ⟨children2, heq, hwf⟩ := insertAll_root fp rs [] (by simp [wfForestB])
  have hfr : insertAll fp freshLoadingRoot rs = .suite "root" "root" none children2 none := by
    rw [freshLoadingRoot]
    exact heq
  refine ⟨?_, ?_, ?_⟩
  · rw [hfr]
    simpa [wfSuiteChildren] using hwf
  · rw [hfr]
    simp [addResultTree]
    exact addResultAux_ret fp r r.labels "root" children2 hwf
  · rw [hfr]
    simp [addResultTree, countTestId]
    exact addResultAux_test_le fp r r.labels "root" children2 hr hwf

/-- Witness for C4 at a concrete tree of one prior result. -/
theorem addResult_path_ids_witness :
    (sampleResult ["M", "b"] "fail").labels ≠ [] ∧
    (wfSuiteChildren (insertAll "/ws" freshLoadingRoot [sampleResult ["M", "a"] "pass"]) = true ∧
     (addResultTree "/ws" (insertAll "/ws" freshLoadingRoot [sampleResult ["M", "a"] "pass"])
         (sampleResult ["M", "b"] "fail")).2
       = pathOf "root" (sampleResult ["M", "b"] "fail").labels ∧
     1 ≤ countTestId (pathOf "root" (sampleResult ["M", "b"] "fail").labels)
         (addResultTree "/ws" (insertAll "/ws" freshLoadingRoot [sampleResult ["M", "a"] "pass"])
           (sampleResult ["M", "b"] "fail")).1) :=
  ⟨by decide, addResult_path_ids "/ws" [sampleResult ["M", "a"] "pass"]
    (sampleResult ["M", "b"] "fail") (by decide)⟩

/-! ## Frame lemmas for the orchestrator state -/

theorem dispatchParsed_loadedSuite (fp : String) (s : RunnerState)
    (item : Sum Result String) :
    (dispatchParsed fp s item).loadedSuite = s.loadedSuite := by
  cases item with
  | inl r =>
      simp only [dispatchParsed, accept]
      split
      · split <;> rfl
      · rfl
  | inr m =>
      simp only [dispatchParsed, pushMessage]
      split <;> rfl

theorem processAll_loadedSuite (fp : String) :
    ∀ (items : List (Sum Result String)) (s : RunnerState),
      (processAll fp s items).loadedSuite = s.loadedSuite
  | [], _ => rfl
  | item :: items, s => by
      rw [processAll, processAll_loadedSuite fp items _, dispatchParsed_loadedSuite]

theorem processAll_append (fp : String) :
    ∀ (xs ys : List (Sum Result String)) (s : RunnerState),
      processAll fp s (xs ++ ys) = processAll fp (processAll fp s xs) ys
  | [], _, _ => rfl
  | x :: xs, ys, s => by
      rw [List.cons_append, processAll, processAll, processAll_append fp xs ys _]

theorem processAll_inr (fp : String) :
    ∀ (msgs : List String) (s : RunnerState),
      processAll fp s (msgs.map Sum.inr)
        = { s with pendingMessages :=
              s.pendingMessages ++ msgs.filter nonEmptyStr }
  | [], s => by simp [processAll]
  | m :: msgs, s => by
      by_cases hm : m = ""
      · simp [processAll, dispatchParsed, pushMessage, nonEmptyStr, hm,
          processAll_inr fp msgs s]
      · simp [processAll, dispatchParsed, pushMessage, nonEmptyStr, hm,
          processAll_inr fp msgs]

/-! ## Claim theorems about the run lifecycle -/

/-- C1 counterexample: a result indexed by an earlier run is still queryable
right after `runAllTests` starts a full run — the result index is not
cleared. -/
theorem runAllTestsStart_keeps_result_index :
    priorState.resultById "root/Mod/t1" = some (sampleResult ["Mod", "t1"] "pass") ∧
    (runAllTestsStart priorState).resultById "root/Mod/t1"
      = some (sampleResult ["Mod", "t1"] "pass") :=
  ⟨rfl, rfl⟩

/-- C1 (amended): neither `runAllTests` nor `runSomeTests` clears the result
index when a run starts, and each dispatched line changes the index at most
at the single id it stores — so every entry present before any run and not
overwritten by the run is still present unchanged. -/
theorem resultIndex_frame (s : RunnerState) (k : String) :
    (runAllTestsStart s).resultById k = s.resultById k ∧
    (runSomeTestsStart s).resultById k = s.resultById k ∧
    ∀ (fp : String) (item : Sum Result String),
      (dispatchParsed fp s item).resultById k = s.resultById k ∨
      ∃ r, item = Sum.inl r ∧
        (dispatchParsed fp s item).resultById k
          = some { r with messages := s.pendingMessages } := by
  refine ⟨rfl, rfl, ?_⟩
  intro fp item
  cases item with
  | inr m =>
      left
      simp only [dispatchParsed, pushMessage]
      split <;> rfl
  | inl r =>
      by_cases he : r.event = "testCompleted"
      · cases hl : s.loadingSuite with
        | none => left; simp [dispatchParsed, accept, he, hl]
        | some t =>
            have hred : dispatchParsed fp s (Sum.inl r)
                = { s with
                    loadingSuite :=
                      some (addResultTree fp t { r with messages := s.pendingMessages }).1,
                    pendingMessages := [],
                    resultById := fun k0 =>
                      if k0 = (addResultTree fp t { r with messages := s.pendingMessages }).2
                      then some { r with messages := s.pendingMessages }
                      else s.resultById k0 } := by
              show accept fp s r = _
              unfold accept
              rw [if_pos he, hl]
            by_cases hk : k = (addResultTree fp t { r with messages := s.pendingMessages }).2
            · right
              refine ⟨r, rfl, ?_⟩
              rw [hred]
              simp [hk]
            · left
              rw [hred]
              simp [hk]
      · left
        simp [dispatchParsed, accept, he]

/-- C6: on process close, when no loaded tree exists the loading tree is
promoted; when a loaded tree exists it is kept unchanged and the loading tree
is discarded; the run always resolves with the loaded tree; and after
`runAllTests` (which resets the loaded tree) a full run's tree is always the
one promoted and resolved. -/
theorem onClose_promotes (fp : String) :
    (∀ s : RunnerState, s.loadedSuite = none →
       onClose s = ({ s with loadedSuite := s.loadingSuite }, s.loadingSuite)) ∧
    (∀ (s : RunnerState) (t : TNode), s.loadedSuite = some t →
       onClose s = (s, some t)) ∧
    (∀ s : RunnerState, (onClose s).2 = (onClose s).1.loadedSuite) ∧
    (∀ (s : RunnerState) (items : List (Sum Result String)),
       (onClose (processAll fp (runAllTestsStart s) items)).2
         = (processAll fp (runAllTestsStart s) items).loadingSuite) := by
  refine ⟨?_, ?_, ?_, ?_⟩
  · intro s h
    simp [onClose, h]
  · intro s t h
    simp [onClose, h]
    rw [← h]
  · intro s
    exact rfl
  · intro s items
    have hl : (processAll fp (runAllTestsStart s) items).loadedSuite = none := by
      rw [processAll_loadedSuite]
      rfl
    simp [onClose, hl]

/-- Witness for C6: promotion on a fresh runner, preservation on a runner
holding a loaded tree, and promotion after a full run processing one
result. -/
theorem onClose_promotes_witness :
    initialState.loadedSuite = none ∧
    onClose initialState
      = ({ initialState with loadedSuite := initialState.loadingSuite },
         initialState.loadingSuite) ∧
    ({ initialState with loadedSuite := some freshLoadingRoot } :
        RunnerState).loadedSuite = some freshLoadingRoot ∧
    onClose { initialState with loadedSuite := some freshLoadingRoot }
      = ({ initialState with loadedSuite := some freshLoadingRoot },
         some freshLoadingRoot) ∧
    (onClose (processAll "/ws" (runAllTestsStart initialState)
        [Sum.inl (sampleResult ["M", "t"] "pass")])).2
      = (processAll "/ws" (runAllTestsStart initialState)
          [Sum.inl (sampleResult ["M", "t"] "pass")]).loadingSuite :=
  ⟨rfl,
   (onClose_promotes "/ws").1 initialState rfl,
   rfl,
   (onClose_promotes "/ws").2.1 _ freshLoadingRoot rfl,
   (onClose_promotes "/ws").2.2.2 initialState [Sum.inl (sampleResult ["M", "t"] "pass")]⟩

theorem accept_testCompleted (fp : String) (s : RunnerState) (t : TNode) (r : Result)
    (ht : s.loadingSuite = some t) (he : r.event = "testCompleted") :
    accept fp s r
      = { s with
          loadingSuite := some (addResultTree fp t { r with messages := s.pendingMessages }).1,
          pendingMessages := [],
          resultById := fun k0 =>
            if k0 = (addResultTree fp t { r with messages := s.pendingMessages }).2
            then some { r with messages := s.pendingMessages }
            else s.resultById k0 } := by
  unfold accept
  rw [if_pos he, ht]

/-- C2: the diagnostic strings buffered after one `testCompleted` result and
before the next are attached, in arrival order, as the `messages` of exactly
that next result (indexed under the id the insertion returns) and of no other
entry of the result index, and the pending buffer is empty immediately after
each of the two attachments. -/
theorem messages_attach_to_next_result (fp : String) (s : RunnerState) (t : TNode)
    (ht : s.loadingSuite = some t) (msgs : List String) (r1 r2 : Result)
    (h1 : r1.event = "testCompleted") (h2 : r2.event = "testCompleted") :
    (processAll fp s [Sum.inl r1]).pendingMessages = [] ∧
    ∃ id2,
      (processAll fp (processAll fp s [Sum.inl r1])
          (msgs.map Sum.inr ++ [Sum.inl r2])).pendingMessages = [] ∧
      (processAll fp (processAll fp s [Sum.inl r1])
          (msgs.map Sum.inr ++ [Sum.inl r2])).resultById id2
        = some { r2 with messages := msgs.filter nonEmptyStr } ∧
      ∀ k, ¬ (k = id2) →
        (processAll fp (processAll fp s [Sum.inl r1])
            (msgs.map Sum.inr ++ [Sum.inl r2])).resultById k
          = (processAll fp s [Sum.inl r1]).resultById k := by
  have hT1 : (processAll fp s [Sum.inl r1]).loadingSuite
      = some (addResultTree fp t { r1 with messages := s.pendingMessages }).1 := by
    rw [show processAll fp s [Sum.inl r1] = accept fp s r1 from rfl,
        accept_testCompleted fp s t r1 ht h1]
  have hP1 : (processAll fp s [Sum.inl r1]).pendingMessages = [] := by
    rw [show processAll fp s [Sum.inl r1] = accept fp s r1 from rfl,
        accept_testCompleted fp s t r1 ht h1]
  refine ⟨hP1, ?_⟩
  revert hT1 hP1
  generalize processAll fp s [Sum.inl r1] = s1
  generalize (addResultTree fp t { r1 with messages := s.pendingMessages }).1 = T1
  intro hT1 hP1
  rw [processAll_append, processAll_inr]
  have hL2 : ({ s1 with pendingMessages :=
      s1.pendingMessages ++ msgs.filter nonEmptyStr } : RunnerState).loadingSuite
      = some T1 := hT1
  have hred := accept_testCompleted fp
    { s1 with pendingMessages := s1.pendingMessages ++ msgs.filter nonEmptyStr }
    T1 r2 hL2 h2
  simp only [processAll, dispatchParsed]
  rw [hred, hP1]
  simp only [List.nil_append]
  refine ⟨(addResultTree fp T1 { r2 with messages := msgs.filter nonEmptyStr }).2,
    ?_, ?_, ?_⟩
  · trivial
  · simp
  · intro k hk
    simp [hk]

/-- Witness for C2 on a fresh full run: one result, then two diagnostics (one
of them empty), then a second result. -/
theorem messages_attach_to_next_result_witness :
    (runAllTestsStart initialState).loadingSuite = some freshLoadingRoot ∧
    (sampleResult ["M", "a"] "pass").event = "testCompleted" ∧
    (sampleResult ["M", "b"] "fail").event = "testCompleted" ∧
    ((processAll "/ws" (runAllTestsStart initialState)
        [Sum.inl (sampleResult ["M", "a"] "pass")]).pendingMessages = [] ∧
     ∃ id2,
       (processAll "/ws" (processAll "/ws" (runAllTestsStart initialState)
            [Sum.inl (sampleResult ["M", "a"] "pass")])
           (["diag", ""].map Sum.inr ++ [Sum.inl (sampleResult ["M", "b"] "fail")])).pendingMessages = [] ∧
       (processAll "/ws" (processAll "/ws" (runAllTestsStart initialState)
            [Sum.inl (sampleResult ["M", "a"] "pass")])
           (["diag", ""].map Sum.inr ++ [Sum.inl (sampleResult ["M", "b"] "fail")])).resultById id2
         = some { sampleResult ["M", "b"] "fail" with
                  messages := ["diag", ""].filter nonEmptyStr } ∧
       ∀ k, ¬ (k = id2) →
         (processAll "/ws" (processAll "/ws" (runAllTestsStart initialState)
              [Sum.inl (sampleResult ["M", "a"] "pass")])
             (["diag", ""].map Sum.inr ++ [Sum.inl (sampleResult ["M", "b"] "fail")])).resultById k
           = (processAll "/ws" (runAllTestsStart initialState)
               [Sum.inl (sampleResult ["M", "a"] "pass")]).resultById k) :=
  ⟨rfl, rfl, rfl,
   messages_attach_to_next_result "/ws" (runAllTestsStart initialState) freshLoadingRoot
     rfl ["diag", ""] (sampleResult ["M", "a"] "pass") (sampleResult ["M", "b"] "fail")
     rfl rfl⟩

/-- C10: an empty diagnostic string dispatched to the orchestrator is
discarded before buffering, so the pending buffer never holds the empty
string and no indexed result's `messages` ever contains it. -/
theorem emptyDiagnostic_discarded :
    (∀ (fp : String) (s : RunnerState), dispatchParsed fp s (Sum.inr "") = s) ∧
    (∀ (fp : String) (items : List (Sum Result String)) (s : RunnerState),
       noEmptyState s → noEmptyState (processAll fp s items)) := by
  constructor
  · intro fp s
    simp [dispatchParsed, pushMessage]
  · intro fp items
    induction items with
    | nil => intro s h; exact h
    | cons item items ih =>
        intro s h
        rw [processAll]
        apply ih
        cases item with
        | inr m =>
            by_cases hm : m = ""
            · simpa [dispatchParsed, pushMessage, hm] using h
            · rw [show dispatchParsed fp s (Sum.inr m) = pushMessage s m from rfl,
                  pushMessage, if_neg hm]
              refine ⟨?_, h.2⟩
              intro hmem
              rcases List.mem_append.mp hmem with h1 | h2
              · exact h.1 h1
              · exact hm ((List.mem_singleton.mp h2).symm)
        | inl r =>
            by_cases he : r.event = "testCompleted"
            · cases hl : s.loadingSuite with
              | none => simpa [dispatchParsed, accept, he, hl] using h
              | some t =>
                  rw [show dispatchParsed fp s (Sum.inl r) = accept fp s r from rfl,
                      accept_testCompleted fp s t r hl he]
                  refine ⟨by simp, ?_⟩
                  intro k r0 hk
                  have hk2 : (if k = (addResultTree fp t { r with messages := s.pendingMessages }).2
                      then some { r with messages := s.pendingMessages }
                      else s.resultById k) = some r0 := hk
                  by_cases hkk : k = (addResultTree fp t { r with messages := s.pendingMessages }).2
                  · rw [if_pos hkk] at hk2
                    cases hk2
                    exact h.1
                  · rw [if_neg hkk] at hk2
                    exact h.2 k r0 hk2
            · simpa [dispatchParsed, accept, he] using h

/-- Witness for C10: a run-start state processing one diagnostic, one empty
line and one result. -/
theorem emptyDiagnostic_discarded_witness :
    noEmptyState (runAllTestsStart initialState) ∧
    noEmptyState (processAll "/ws" (runAllTestsStart initialState)
      [Sum.inr "x", Sum.inr "", Sum.inl (sampleResult ["M", "t"] "pass")]) :=
  have h0 : noEmptyState (runAllTestsStart initialState) := by
    constructor
    · simp [runAllTestsStart, initialState]
    · intro k r h
      simp [runAllTestsStart, initialState] at h
  ⟨h0, emptyDiagnostic_discarded.2 "/ws"
    [Sum.inr "x", Sum.inr "", Sum.inl (sampleResult ["M", "t"] "pass")]
    (runAllTestsStart initialState) h0⟩

/-- C5: when the initial build task ends with exit code 1, the run is
rejected with a message that contains the literal substring
`elm-test failed.` and no report-mode invocation is started; every other
exit code proceeds to the report-mode invocation. -/
theorem buildExit_contract :
    (∃ pre suf, handleTaskEnd elmTestTaskName 1
        = .rejectRun (pre ++ "elm-test failed." ++ suf)) ∧
    ∀ exitCode : Int, exitCode ≠ 1 → handleTaskEnd elmTestTaskName exitCode = .runReport := by
  constructor
  · exact ⟨"", "\nCheck for Elm errors,\nfind details in the \"Task - Run Elm Test\" terminal.",
      rfl⟩
  · intro c hc
    simp [handleTaskEnd, hc]

/-- Witness for C5 at exit code 0. -/
theorem buildExit_contract_witness :
    (0 : Int) ≠ 1 ∧ handleTaskEnd elmTestTaskName 0 = .runReport :=
  ⟨by decide, buildExit_contract.2 0 (by decide)⟩

/-- C8 (code bug): `getFilePath` uses JavaScript `replace` with a string
pattern, which replaces only the first dot of the module label; for the
module label `A.B.C` the derived path is `/ws/tests/A/B.C.elm`, which differs
from the all-dots mapping `/ws/tests/A/B/C.elm` that the spec describes. -/
theorem getFilePath_first_dot_only :
    getFilePath "/ws" (sampleResult ["A.B.C", "t"] "pass") = "/ws/tests/A/B.C.elm" ∧
    (("/ws/tests/A/B.C.elm" : String) == "/ws/tests/A/B/C.elm") = false := by
  constructor
  · rfl
  · decide

/-! ## Event replay refines the spec's description -/

mutual

theorem fireEvents_spec_aux (res : String → Option Result) :
    ∀ t : TNode, fireEvents res t = specFireEvents res t
  | .suite id label desc children file => by
      simp only [fireEvents, specFireEvents, fireEventsAll_spec_aux res children,
        List.singleton_append, List.cons_append, List.nil_append]
  | .test id label desc file sk => by
      cases hres : res id with
      | none => simp [fireEvents, specFireEvents, specTerminalEvent, hres]
      | some r =>
          simp only [fireEvents, specFireEvents, hres]
          split <;> simp_all [specTerminalEvent]

theorem fireEventsAll_spec_aux (res : String → Option Result) :
    ∀ cs : List TNode, fireEventsAll res cs = specFireEventsAll res cs
  | [] => by simp [fireEventsAll, specFireEventsAll]
  | c :: cs => by
      simp only [fireEventsAll, specFireEventsAll, fireEvents_spec_aux res c,
        fireEventsAll_spec_aux res cs]

end

/-- C7: `fireEvents` emits exactly the spec's depth-first sequence — for a
Suite a running marker, the full event sequence of each child in order, then
a completed marker; for a Test a running marker followed by exactly one
terminal marker: `passed` for status `pass`, `skipped` for `todo`, `failed`
for anything else or a missing indexed result. -/
theorem fireEvents_depth_first (res : String → Option Result) (t : TNode) :
    fireEvents res t = specFireEvents res t :=
  fireEvents_spec_aux res t

/-- C9: `parseTestResult` is total over every input line and decoder outcome:
it yields either a typed Result or a string, and whenever the decode fails or
the `event` field is missing or unrecognized it yields the original input
line verbatim. -/
theorem parseTestResult_total (decode : String → Option Json) (line : String) :
    ((∃ r, parseTestResult decode line = Sum.inl r) ∨
      parseTestResult decode line = Sum.inr line) ∧
    (decode line = none → parseTestResult decode line = Sum.inr line) ∧
    (∀ j, decode line = some j → recognizedEventB j = false →
      parseTestResult decode line = Sum.inr line) := by
  refine ⟨?_, ?_, ?_⟩
  · unfold parseTestResult
    split
    · exact Or.inr rfl
    · split
      · exact Or.inl ⟨_, rfl⟩
      · exact Or.inl ⟨_, rfl⟩
      · split
        · split
          · exact Or.inl ⟨_, rfl⟩
          · exact Or.inr rfl
        · exact Or.inr rfl
      · exact Or.inr rfl
  · intro h
    unfold parseTestResult
    rw [h]
  · intro j hj
    unfold parseTestResult recognizedEventB
    rw [hj]
    split <;> simp

/-- Witness for C9: a decoder that fails returns the line verbatim. -/
theorem parseTestResult_total_witness :
    (fun _ => (none : Option Json)) "hello" = none ∧
    parseTestResult (fun _ => none) "hello" = Sum.inr "hello" :=
  ⟨rfl, (parseTestResult_total (fun _ => none) "hello").2.1 rfl⟩
